import Mathlib

/-
Verification of the aesor shading core: a Lean embedding of the vector
primitives (util.rs), the shape catalog (shape/corn.rs, shape/concave.rs,
shape/round_box.rs), the Phong-like reflection evaluator and the per-pixel
compositor (core.rs).  Machine floating point (f64) is modelled by the real
numbers; the Rust division-by-zero hazard (NaN) corresponds to Lean's
x / 0 = 0 junk value, and the theorems below avoid relying on the junk value
except where a claim forces evaluation at a degenerate input.
-/

namespace Aesor

/-- Three-component real vector mirroring `Vec3` of util.rs. -/
@[ext]
structure Vec3 where
  x : ℝ
  y : ℝ
  z : ℝ

/-- The `point` constructor of util.rs: a 2D point with z = 0. -/
def point (x y : ℝ) : Vec3 :=
  ⟨x, y, 0⟩

/-- Dot product, `Vec3::dot`. -/
def Vec3.dot (v w : Vec3) : ℝ :=
  v.x * w.x + v.y * w.y + v.z * w.z

/-- Euclidean norm, `Vec3::norm`. -/
noncomputable def Vec3.norm (v : Vec3) : ℝ :=
  Real.sqrt (v.x ^ 2 + v.y ^ 2 + v.z ^ 2)

/-- Negation, `impl Neg for &Vec3` (defined there as `-1. * self`). -/
def Vec3.neg (v : Vec3) : Vec3 :=
  ⟨-1 * v.x, -1 * v.y, -1 * v.z⟩

/-- Componentwise addition, `impl Add for &Vec3`. -/
def Vec3.add (v w : Vec3) : Vec3 :=
  ⟨v.x + w.x, v.y + w.y, v.z + w.z⟩

/-- Componentwise subtraction, `impl Sub for &Vec3`. -/
def Vec3.sub (v w : Vec3) : Vec3 :=
  ⟨v.x - w.x, v.y - w.y, v.z - w.z⟩

/-- Scalar multiplication, `impl Mul<&Vec3> for f64`. -/
def Vec3.scale (k : ℝ) (v : Vec3) : Vec3 :=
  ⟨k * v.x, k * v.y, k * v.z⟩

/-- Scalar division, `impl Div<f64> for &Vec3`. -/
noncomputable def Vec3.divi (v : Vec3) (k : ℝ) : Vec3 :=
  ⟨v.x / k, v.y / k, v.z / k⟩

/-- Normalization, `Vec3::normal`: `self / self.norm()`. -/
noncomputable def Vec3.normal (v : Vec3) : Vec3 :=
  v.divi v.norm

/-- 2D rotation helper, `Vec3::rot_xy`: rotate the x/y components by the
direction of `rot` (which is normalized first), leave z unchanged. -/
noncomputable def Vec3.rot_xy (v rot : Vec3) : Vec3 :=
  ⟨v.x * rot.normal.x - v.y * rot.normal.y,
   v.x * rot.normal.y + v.y * rot.normal.x,
   v.z⟩

/-- The `Corn` shape of shape/corn.rs. -/
structure Corn where
  center : Vec3
  radius : ℝ
  height : ℝ

/-- `Corn::normal_vec`: inside the radius, rotate the canonical slant vector
`(height, 0, radius)` into the direction of `p - center` and normalize;
coverage is `(radius - |p - center|).min(1)`. -/
noncomputable def Corn.normal_vec (s : Corn) (p : Vec3) : Option (Vec3 × ℝ) :=
  let q := p.sub s.center
  if q.norm ≤ s.radius then
    some (((Vec3.mk s.height 0 s.radius).rot_xy q).normal, min (s.radius - q.norm) 1)
  else
    none

/-- The `Concave` shape of shape/concave.rs. -/
structure Concave where
  center : Vec3
  radius : ℝ
  depth : ℝ

/-- `Concave::normal_vec`: inside the radius, derive the sphere radius
`r = |depth| + (radius^2 - depth^2)/(2 |depth|)`, the polar angle
`theta = asin(|p - center| / r)` and the orientation sign
`-depth / |depth|`; the normal is the normalization of
`(sign * d.x, sign * d.y, r * cos theta)`. -/
noncomputable def Concave.normal_vec (s : Concave) (p : Vec3) : Option (Vec3 × ℝ) :=
  let q := p.sub s.center
  if q.norm ≤ s.radius then
    let y0 := (s.radius ^ 2 - s.depth ^ 2) / (2 * |s.depth|)
    let r := |s.depth| + y0
    let theta := Real.arcsin (q.norm / r)
    let psign := -1 * s.depth / |s.depth|
    some ((Vec3.mk (psign * q.x) (psign * q.y) (r * Real.cos theta)).normal,
      min (s.radius - q.norm) 1)
  else
    none

/-- The `RoundBox` shape of shape/round_box.rs. -/
structure RoundBox where
  top_left : Vec3
  bottom_right : Vec3
  border_radius : ℝ
  depth : ℝ

/-- The rim anchor `(rim_x, rim_y)` computed by `RoundBox::normal_vec`:
per axis, `top_left` when the coordinate is `≤` it, the coordinate itself
when strictly below `bottom_right`, else `bottom_right`. -/
noncomputable def RoundBox.rim (s : RoundBox) (p : Vec3) : ℝ × ℝ :=
  if p.x ≤ s.top_left.x then
    if p.y ≤ s.top_left.y then (s.top_left.x, s.top_left.y)
    else if p.y < s.bottom_right.y then (s.top_left.x, p.y)
    else (s.top_left.x, s.bottom_right.y)
  else if p.x < s.bottom_right.x then
    if p.y ≤ s.top_left.y then (p.x, s.top_left.y)
    else if p.y < s.bottom_right.y then (p.x, p.y)
    else (p.x, s.bottom_right.y)
  else
    if p.y ≤ s.top_left.y then (s.bottom_right.x, s.top_left.y)
    else if p.y < s.bottom_right.y then (s.bottom_right.x, p.y)
    else (s.bottom_right.x, s.bottom_right.y)

/-- `RoundBox::normal_vec`: delegate to a transient `Concave` centered at the
rim anchor, with radius `border_radius` and the box's depth. -/
noncomputable def RoundBox.normal_vec (s : RoundBox) (p : Vec3) : Option (Vec3 × ℝ) :=
  Concave.normal_vec ⟨point (s.rim p).1 (s.rim p).2, s.border_radius, s.depth⟩ p

/-- The default `Reflect::reflect` of core.rs, generic in the surface's
`normal_vec` query: diffuse `-incident . n`, specular
`max ((normalize (incident - 2 (incident . n) n)) . (-sight)) 0`, and the
coverage alpha, whenever `normal_vec` answers; `none` otherwise. -/
noncomputable def reflect (nv : Vec3 → Option (Vec3 × ℝ)) (p incident sight : Vec3) :
    Option (ℝ × ℝ × ℝ) :=
  (nv p).map fun na =>
    let reflection := (incident.sub (Vec3.scale (2 * incident.dot na.1) na.1)).normal
    (-(incident.dot na.1), max (reflection.dot sight.neg) 0, na.2)

/-- An RGBA pixel: the four u8 channels of `image::Rgba<u8>`, modelled as
natural numbers (the compositor only ever stores saturating-cast values). -/
structure Rgba where
  r : ℕ
  g : ℕ
  b : ℕ
  a : ℕ

/-- The `Material` struct of core.rs. -/
structure Material where
  color : Rgba
  shininess : ℤ
  reflection_brightness : ℝ

/-- The `Setting` struct of core.rs. -/
structure Setting where
  distance : ℕ
  incident : Vec3
  ambient_brightness : ℝ

/-- The Rust `as u8` saturating cast applied to an f64: truncate toward zero
and clamp into 0..=255 (every value it is applied to in core.rs is already
capped by `.min(255.)`). -/
noncomputable def toU8 (v : ℝ) : ℕ :=
  min (Int.toNat (Int.floor v)) 255

/-- The body of the per-pixel loop of `Draw::draw` in core.rs: query `reflect`
at pixel (x, y) with sight direction
`normalize (x - w/2, y - h/2, -distance)`; on a hit, build the RGBA color from
the material and blend it over the old pixel (`blend` abstracts the image
crate's `Pixel::blend`, which is outside this repository). -/
noncomputable def drawPixel (nv : Vec3 → Option (Vec3 × ℝ)) (st : Setting) (mat : Material)
    (blend : Rgba → Rgba → Rgba) (w h x y : ℕ) (old : Rgba) : Rgba :=
  match reflect nv (Vec3.mk x y 0) st.incident
      ((Vec3.mk ((x : ℝ) - (w : ℝ) / 2) ((y : ℝ) - (h : ℝ) / 2) (-(st.distance : ℝ))).normal) with
  | none => old
  | some dsa =>
    let df := 0.3 * dsa.1 + st.ambient_brightness
    let sp := dsa.2.1
    let alpha := dsa.2.2
    blend old
      ⟨toU8 (min ((mat.color.r : ℝ) * df + mat.reflection_brightness * 255 * sp ^ mat.shininess) 255),
       toU8 (min ((mat.color.g : ℝ) * df + mat.reflection_brightness * 255 * sp ^ mat.shininess) 255),
       toU8 (min ((mat.color.b : ℝ) * df + mat.reflection_brightness * 255 * sp ^ mat.shininess) 255),
       toU8 (min ((mat.color.a : ℝ) * alpha) 255)⟩

/-- `Draw::draw` of core.rs: run the per-pixel body on every pixel of the
w-by-h buffer, in place (the buffer is a function from coordinates to pixels;
coordinates outside the buffer are untouched). -/
noncomputable def draw (nv : Vec3 → Option (Vec3 × ℝ)) (st : Setting) (mat : Material)
    (blend : Rgba → Rgba → Rgba) (w h : ℕ) (img : ℕ → ℕ → Rgba) : ℕ → ℕ → Rgba :=
  fun x y => if x < w ∧ y < h then drawPixel nv st mat blend w h x y (img x y) else img x y

/-- C1: for every surface query function, query point, incident light L and
view direction V, if the surface query returns a normal N and coverage alpha
then the reflection evaluator returns exactly
(-L.N, max 0 ((normalize (L - 2 (L.N) N)) . (-V)), alpha); and if the surface
query returns nothing the evaluator returns nothing. -/
theorem reflect_phong_split (nv : Vec3 → Option (Vec3 × ℝ)) (p L V : Vec3) :
    (∀ N alpha, nv p = some (N, alpha) →
      reflect nv p L V =
        some (-(L.dot N),
          max 0 (((L.sub (Vec3.scale (2 * L.dot N) N)).normal).dot V.neg),
          alpha)) ∧
    (nv p = none → reflect nv p L V = none) := by
  constructor
  · intro N alpha h
    simp [reflect, h, max_comm]
  · intro h
    simp [reflect, h]

/-- Witness for C1: the reflection evaluator applied at a concrete surface
query answering normal (0,0,1) with coverage 1, light (0,0,-1) and view
(0,0,-1), and at a concrete query answering nothing. -/
theorem reflect_phong_split_witness :
    reflect (fun _ => some (Vec3.mk 0 0 1, 1)) (Vec3.mk 0 0 0) (Vec3.mk 0 0 (-1))
        (Vec3.mk 0 0 (-1)) =
      some (-(Vec3.dot (Vec3.mk 0 0 (-1)) (Vec3.mk 0 0 1)),
        max 0 ((((Vec3.mk 0 0 (-1)).sub
            (Vec3.scale (2 * Vec3.dot (Vec3.mk 0 0 (-1)) (Vec3.mk 0 0 1))
              (Vec3.mk 0 0 1))).normal).dot (Vec3.mk 0 0 (-1)).neg),
        1) ∧
    reflect (fun _ => none) (Vec3.mk 0 0 0) (Vec3.mk 0 0 (-1)) (Vec3.mk 0 0 (-1)) = none := by
  constructor
  · exact (reflect_phong_split (fun _ => some (Vec3.mk 0 0 1, 1)) (Vec3.mk 0 0 0)
      (Vec3.mk 0 0 (-1)) (Vec3.mk 0 0 (-1))).1 (Vec3.mk 0 0 1) 1 rfl
  · exact (reflect_phong_split (fun _ => none) (Vec3.mk 0 0 0)
      (Vec3.mk 0 0 (-1)) (Vec3.mk 0 0 (-1))).2 rfl

/-- C2: at every pixel (x, y) of a w-by-h buffer where the reflection
evaluator — invoked with the view direction
normalize (x - w/2, y - h/2, -distance) — returns (df, sp, alpha), the
compositor computes effective diffuse 0.3 df + ambient_brightness, sets each
color channel to the u8 cast of
min (material channel * effective diffuse + reflection_brightness * 255 * sp ^ shininess) 255,
sets the alpha channel to the u8 cast of min (material alpha * alpha) 255,
and blends the resulting RGBA onto the existing pixel in place. -/
theorem draw_pixel_formula (nv : Vec3 → Option (Vec3 × ℝ)) (st : Setting) (mat : Material)
    (blend : Rgba → Rgba → Rgba) (w h x y : ℕ) (img : ℕ → ℕ → Rgba) (df sp alpha : ℝ)
    (hx : x < w) (hy : y < h)
    (hrf : reflect nv (Vec3.mk x y 0) st.incident
      ((Vec3.mk ((x : ℝ) - (w : ℝ) / 2) ((y : ℝ) - (h : ℝ) / 2)
        (-(st.distance : ℝ))).normal) = some (df, sp, alpha)) :
    draw nv st mat blend w h img x y =
      blend (img x y)
        ⟨toU8 (min ((mat.color.r : ℝ) * (0.3 * df + st.ambient_brightness) +
            mat.reflection_brightness * 255 * sp ^ mat.shininess) 255),
         toU8 (min ((mat.color.g : ℝ) * (0.3 * df + st.ambient_brightness) +
            mat.reflection_brightness * 255 * sp ^ mat.shininess) 255),
         toU8 (min ((mat.color.b : ℝ) * (0.3 * df + st.ambient_brightness) +
            mat.reflection_brightness * 255 * sp ^ mat.shininess) 255),
         toU8 (min ((mat.color.a : ℝ) * alpha) 255)⟩ := by
  unfold draw
  rw [if_pos ⟨hx, hy⟩]
  unfold drawPixel
  rw [hrf]

/-- Witness for C2: a concrete 2-by-2 buffer, pixel (1, 1), a surface query
answering normal (0,0,1) with coverage 1, light (0,0,-1), distance 1,
ambient 0, material (100,100,100,200) with shininess 2 and reflection
brightness 1, and replace-blending: the drawn pixel is (255,255,255,200). -/
theorem draw_pixel_formula_witness :
    draw (fun _ => some (Vec3.mk 0 0 1, 1)) ⟨1, Vec3.mk 0 0 (-1), 0⟩
        ⟨⟨100, 100, 100, 200⟩, 2, 1⟩ (fun _ n => n) 2 2 (fun _ _ => ⟨0, 0, 0, 0⟩) 1 1 =
      ⟨255, 255, 255, 200⟩ := by
  refine (draw_pixel_formula (fun _ => some (Vec3.mk 0 0 1, 1)) ⟨1, Vec3.mk 0 0 (-1), 0⟩
      ⟨⟨100, 100, 100, 200⟩, 2, 1⟩ (fun _ n => n) 2 2 1 1 (fun _ _ => ⟨0, 0, 0, 0⟩) 1 1 1
      (by norm_num) (by norm_num) ?_).trans ?_
  · simp only [reflect, Option.map, Vec3.dot, Vec3.sub, Vec3.scale, Vec3.neg, Vec3.normal,
      Vec3.divi, Vec3.norm]
    norm_num [Real.sqrt_one]
  · norm_num [toU8, min_def, one_zpow, Int.floor_ofNat]
    constructor
    · rfl
    · rfl

lemma Vec3.norm_nonneg (v : Vec3) : 0 ≤ v.norm :=
  Real.sqrt_nonneg _

lemma Vec3.norm_mk (a b c : ℝ) : (Vec3.mk a b c).norm = Real.sqrt (a ^ 2 + b ^ 2 + c ^ 2) :=
  rfl

/-- Everything `Corn::normal_vec` guarantees about a returned hit. -/
lemma corn_hit {s : Corn} {p n : Vec3} {cov : ℝ}
    (h : s.normal_vec p = some (n, cov)) :
    (p.sub s.center).norm ≤ s.radius ∧
    n = ((Vec3.mk s.height 0 s.radius).rot_xy (p.sub s.center)).normal ∧
    cov = min (s.radius - (p.sub s.center).norm) 1 := by
  by_cases hc : (p.sub s.center).norm ≤ s.radius
  · simp only [Corn.normal_vec, if_pos hc, Option.some.injEq, Prod.mk.injEq] at h
    exact ⟨hc, h.1.symm, h.2.symm⟩
  · simp only [Corn.normal_vec, if_neg hc] at h
    exact absurd h (by simp)

/-- Everything `Concave::normal_vec` guarantees about a returned hit. -/
lemma concave_hit {s : Concave} {p n : Vec3} {cov : ℝ}
    (h : s.normal_vec p = some (n, cov)) :
    (p.sub s.center).norm ≤ s.radius ∧
    n = (Vec3.mk ((-1 * s.depth / |s.depth|) * (p.sub s.center).x)
          ((-1 * s.depth / |s.depth|) * (p.sub s.center).y)
          ((|s.depth| + (s.radius ^ 2 - s.depth ^ 2) / (2 * |s.depth|)) *
            Real.cos (Real.arcsin ((p.sub s.center).norm /
              (|s.depth| + (s.radius ^ 2 - s.depth ^ 2) / (2 * |s.depth|)))))).normal ∧
    cov = min (s.radius - (p.sub s.center).norm) 1 := by
  by_cases hc : (p.sub s.center).norm ≤ s.radius
  · simp only [Concave.normal_vec, if_pos hc, Option.some.injEq, Prod.mk.injEq] at h
    exact ⟨hc, h.1.symm, h.2.symm⟩
  · simp only [Concave.normal_vec, if_neg hc] at h
    exact absurd h (by simp)

/-- The shared coverage facts for `cov = min (radius - d) 1` at an
in-footprint distance `0 ≤ d ≤ radius`. -/
lemma coverage_props {radius d cov : ℝ} (hin : d ≤ radius)
    (hc : cov = min (radius - d) 1) :
    cov = min 1 (radius - d) ∧ 0 ≤ cov ∧ cov ≤ 1 ∧ (cov = 0 ↔ d = radius) ∧
      (1 ≤ radius - d → cov = 1) := by
  subst hc
  refine ⟨min_comm _ _, le_min (by linarith) zero_le_one, min_le_right _ _, ?_, fun h1 => min_eq_right h1⟩
  constructor
  · intro h0
    rcases min_eq_iff.mp h0 with ⟨ha, _⟩ | ⟨ha, _⟩
    · linarith
    · exact absurd ha one_ne_zero
  · intro h
    simp [h]

/-- Monotonicity of the shared coverage formula in the boundary distance. -/
lemma coverage_mono {radius d₁ d₂ cov₁ cov₂ : ℝ} (h₁ : cov₁ = min (radius - d₁) 1)
    (h₂ : cov₂ = min (radius - d₂) 1) (h : radius - d₁ ≤ radius - d₂) : cov₁ ≤ cov₂ := by
  subst h₁
  subst h₂
  exact min_le_min h le_rfl

/-- C3: every shape's returned coverage equals min 1 (radius - distance from
the shape's (transient) center); it lies in [0, 1], vanishes exactly at the
boundary distance, saturates at 1 at or after 1 unit inside, and is
monotonically non-decreasing as the distance from the boundary increases. -/
theorem coverage_soft_edge :
    (∀ (s : Corn) (p n : Vec3) (cov : ℝ), s.normal_vec p = some (n, cov) →
      cov = min 1 (s.radius - (p.sub s.center).norm) ∧ 0 ≤ cov ∧ cov ≤ 1 ∧
        (cov = 0 ↔ (p.sub s.center).norm = s.radius) ∧
        (1 ≤ s.radius - (p.sub s.center).norm → cov = 1)) ∧
    (∀ (s : Concave) (p n : Vec3) (cov : ℝ), s.normal_vec p = some (n, cov) →
      cov = min 1 (s.radius - (p.sub s.center).norm) ∧ 0 ≤ cov ∧ cov ≤ 1 ∧
        (cov = 0 ↔ (p.sub s.center).norm = s.radius) ∧
        (1 ≤ s.radius - (p.sub s.center).norm → cov = 1)) ∧
    (∀ (s : RoundBox) (p n : Vec3) (cov : ℝ), s.normal_vec p = some (n, cov) →
      cov = min 1 (s.border_radius - (p.sub (point (s.rim p).1 (s.rim p).2)).norm) ∧
        0 ≤ cov ∧ cov ≤ 1 ∧
        (cov = 0 ↔ (p.sub (point (s.rim p).1 (s.rim p).2)).norm = s.border_radius) ∧
        (1 ≤ s.border_radius - (p.sub (point (s.rim p).1 (s.rim p).2)).norm → cov = 1)) ∧
    (∀ (s : Corn) (p₁ p₂ n₁ n₂ : Vec3) (cov₁ cov₂ : ℝ),
      s.normal_vec p₁ = some (n₁, cov₁) → s.normal_vec p₂ = some (n₂, cov₂) →
      s.radius - (p₁.sub s.center).norm ≤ s.radius - (p₂.sub s.center).norm →
      cov₁ ≤ cov₂) ∧
    (∀ (s : Concave) (p₁ p₂ n₁ n₂ : Vec3) (cov₁ cov₂ : ℝ),
      s.normal_vec p₁ = some (n₁, cov₁) → s.normal_vec p₂ = some (n₂, cov₂) →
      s.radius - (p₁.sub s.center).norm ≤ s.radius - (p₂.sub s.center).norm →
      cov₁ ≤ cov₂) := by
  refine ⟨?_, ?_, ?_, ?_, ?_⟩
  · intro s p n cov h
    obtain ⟨hin, _, hc⟩ := corn_hit h
    exact coverage_props hin hc
  · intro s p n cov h
    obtain ⟨hin, _, hc⟩ := concave_hit h
    exact coverage_props hin hc
  · intro s p n cov h
    obtain ⟨hin, _, hc⟩ := concave_hit h
    exact coverage_props hin hc
  · intro s p₁ p₂ n₁ n₂ cov₁ cov₂ h₁ h₂ hle
    exact coverage_mono (corn_hit h₁).2.2 (corn_hit h₂).2.2 hle
  · intro s p₁ p₂ n₁ n₂ cov₁ cov₂ h₁ h₂ hle
    exact coverage_mono (concave_hit h₁).2.2 (concave_hit h₂).2.2 hle

/-- Evaluation helper: the square root of an explicit perfect square. -/
lemma sqrt_eval {a b : ℝ} (hb : 0 ≤ b) (h : a = b ^ 2) : Real.sqrt a = b := by
  rw [h]
  exact Real.sqrt_sq hb

/-- Witness for C3: the Corn with center (0,0,0), radius 3, height 0 queried
at (1,0,0) — distance 1, coverage 1 — satisfies every coverage property. -/
theorem coverage_soft_edge_witness :
    (1 : ℝ) = min 1 (3 - ((Vec3.mk 1 0 0).sub (Vec3.mk 0 0 0)).norm) ∧ (0 : ℝ) ≤ 1 ∧
      (1 : ℝ) ≤ 1 ∧ ((1 : ℝ) = 0 ↔ ((Vec3.mk 1 0 0).sub (Vec3.mk 0 0 0)).norm = 3) ∧
      (1 ≤ 3 - ((Vec3.mk 1 0 0).sub (Vec3.mk 0 0 0)).norm → (1 : ℝ) = 1) := by
  have s9 : Real.sqrt 9 = 3 := sqrt_eval (by norm_num) (by norm_num)
  have hhit : Corn.normal_vec ⟨Vec3.mk 0 0 0, 3, 0⟩ (Vec3.mk 1 0 0) = some (Vec3.mk 0 0 1, 1) := by
    simp only [Corn.normal_vec, Vec3.sub, Vec3.norm, Vec3.rot_xy, Vec3.normal, Vec3.divi]
    norm_num [Real.sqrt_one, s9]
  exact coverage_soft_edge.1 ⟨Vec3.mk 0 0 0, 3, 0⟩ (Vec3.mk 1 0 0) (Vec3.mk 0 0 1) 1 hhit

/-- `Corn::normal_vec` answers nothing strictly outside the radius. -/
lemma corn_miss {s : Corn} {p : Vec3} (h : s.radius < (p.sub s.center).norm) :
    s.normal_vec p = none := by
  simp only [Corn.normal_vec]
  rw [if_neg (not_le.mpr h)]

/-- `Concave::normal_vec` answers nothing strictly outside the radius. -/
lemma concave_miss {s : Concave} {p : Vec3} (h : s.radius < (p.sub s.center).norm) :
    s.normal_vec p = none := by
  simp only [Concave.normal_vec]
  rw [if_neg (not_le.mpr h)]

/-- C4: each shape's surface query returns nothing strictly outside its
footprint (distance from the center, or from the RoundBox rim anchor,
strictly above the radius), and the compositor leaves a pixel whose surface
query answers nothing unmodified (the draw function is total, so a draw call
never fails). -/
theorem outside_footprint_untouched :
    (∀ (s : Corn) (p : Vec3), s.radius < (p.sub s.center).norm → s.normal_vec p = none) ∧
    (∀ (s : Concave) (p : Vec3), s.radius < (p.sub s.center).norm → s.normal_vec p = none) ∧
    (∀ (s : RoundBox) (p : Vec3),
      s.border_radius < (p.sub (point (s.rim p).1 (s.rim p).2)).norm → s.normal_vec p = none) ∧
    (∀ (nv : Vec3 → Option (Vec3 × ℝ)) (st : Setting) (mat : Material)
      (blend : Rgba → Rgba → Rgba) (w h x y : ℕ) (img : ℕ → ℕ → Rgba),
      nv (Vec3.mk x y 0) = none → draw nv st mat blend w h img x y = img x y) := by
  refine ⟨fun s p h => corn_miss h, fun s p h => concave_miss h,
    fun s p h => concave_miss h, ?_⟩
  intro nv st mat blend w h x y img hnone
  by_cases hin : x < w ∧ y < h
  · simp [draw, hin, drawPixel, reflect, hnone]
  · simp [draw, hin]

/-- Witness for C4: a Corn and a Concave of radius 1 queried at distance 2, a
RoundBox of border radius 1/2 queried 2 units past its rim anchor, and a draw
over an always-missing surface leaving the 2-by-2 buffer's pixel (1,1) at its
old value (5,5,5,5). -/
theorem outside_footprint_untouched_witness :
    Corn.normal_vec ⟨Vec3.mk 0 0 0, 1, 1⟩ (Vec3.mk 2 0 0) = none ∧
    Concave.normal_vec ⟨Vec3.mk 0 0 0, 1, 5⟩ (Vec3.mk 2 0 0) = none ∧
    RoundBox.normal_vec ⟨point 0 0, point 1 1, 1 / 2, 1⟩ (Vec3.mk 3 0 0) = none ∧
    draw (fun _ => none) ⟨1, Vec3.mk 0 0 1, 0⟩ ⟨⟨0, 0, 0, 0⟩, 0, 0⟩ (fun _ n => n) 2 2
      (fun _ _ => ⟨5, 5, 5, 5⟩) 1 1 = ⟨5, 5, 5, 5⟩ := by
  have s4 : Real.sqrt 4 = 2 := sqrt_eval (by norm_num) (by norm_num)
  refine ⟨outside_footprint_untouched.1 _ _ ?_, outside_footprint_untouched.2.1 _ _ ?_,
    outside_footprint_untouched.2.2.1 _ _ ?_, outside_footprint_untouched.2.2.2 _ _ _ _ _ _ _ _ _ rfl⟩
  · simp only [Vec3.sub, Vec3.norm]
    norm_num [s4]
  · simp only [Vec3.sub, Vec3.norm]
    norm_num [s4]
  · simp only [RoundBox.rim, point, Vec3.sub, Vec3.norm]
    norm_num [s4]

/-- Modelled from the spec: the componentwise clamp of the query point onto
the axis-aligned rectangle spanned by the two corner points of a `RoundBox`
(lower edge when the coordinate is before it, upper edge when past it, the
coordinate itself otherwise). -/
noncomputable def specRectClamp (s : RoundBox) (p : Vec3) : ℝ × ℝ :=
  (max (min s.top_left.x s.bottom_right.x) (min p.x (max s.top_left.x s.bottom_right.x)),
   max (min s.top_left.y s.bottom_right.y) (min p.y (max s.top_left.y s.bottom_right.y)))

/-- One axis of the rim computation agrees with the clamp onto [lo, hi]
whenever lo ≤ hi. -/
lemma clamp_branch {lo hi t : ℝ} (hlh : lo ≤ hi) :
    (if t ≤ lo then lo else if t < hi then t else hi) =
      max (min lo hi) (min t (max lo hi)) := by
  rw [min_eq_left hlh, max_eq_right hlh]
  split_ifs with h1 h2
  · rw [min_eq_left (h1.trans hlh), max_eq_left h1]
  · rw [min_eq_left h2.le, max_eq_right (not_le.mp h1).le]
  · rw [min_eq_right (not_lt.mp h2), max_eq_right hlh]

/-- The nested rim branches compute the two axes independently. -/
lemma RoundBox.rim_eq_components (s : RoundBox) (p : Vec3) :
    s.rim p =
      (if p.x ≤ s.top_left.x then s.top_left.x
        else if p.x < s.bottom_right.x then p.x else s.bottom_right.x,
       if p.y ≤ s.top_left.y then s.top_left.y
        else if p.y < s.bottom_right.y then p.y else s.bottom_right.y) := by
  unfold RoundBox.rim
  split_ifs <;> rfl

/-- C5 counterexample: for the RoundBox with top_left (0,10) and
bottom_right (10,0) — so top_left.y > bottom_right.y — the rim anchor at
query point (5,5) is (5,10), not the clamp (5,5) onto the rectangle spanned
by the two corner points. -/
theorem roundbox_rim_clamp_counterexample :
    RoundBox.rim ⟨Vec3.mk 0 10 0, Vec3.mk 10 0 0, 6, -4⟩ (Vec3.mk 5 5 0) ≠
      specRectClamp ⟨Vec3.mk 0 10 0, Vec3.mk 10 0 0, 6, -4⟩ (Vec3.mk 5 5 0) := by
  simp only [RoundBox.rim, specRectClamp]
  norm_num [Prod.ext_iff]

/-- C5 (amended): whenever top_left ≤ bottom_right componentwise (including
the degenerate equal case), the rim anchor equals the componentwise clamp of
the query point onto the rectangle spanned by the corner points, and the
query is delegated to a transient Concave centered at the anchor with
radius = border_radius and the box's depth; for top_left.y > bottom_right.y
the anchor instead follows the code's asymmetric branches and is not the
spanned-rectangle clamp. -/
theorem roundbox_rim_clamp (s : RoundBox) (p : Vec3)
    (hx : s.top_left.x ≤ s.bottom_right.x) (hy : s.top_left.y ≤ s.bottom_right.y) :
    s.rim p = specRectClamp s p ∧
    s.normal_vec p =
      Concave.normal_vec ⟨point (s.rim p).1 (s.rim p).2, s.border_radius, s.depth⟩ p := by
  refine ⟨?_, rfl⟩
  rw [RoundBox.rim_eq_components]
  unfold specRectClamp
  exact Prod.ext (clamp_branch hx) (clamp_branch hy)

/-- Witness for C5: the RoundBox spanning (0,0)–(10,10) queried at (5,12):
the rim anchor equals the rectangle clamp and the query is delegated. -/
theorem roundbox_rim_clamp_witness :
    RoundBox.rim ⟨point 0 0, point 10 10, 2, 1⟩ (Vec3.mk 5 12 0) =
        specRectClamp ⟨point 0 0, point 10 10, 2, 1⟩ (Vec3.mk 5 12 0) ∧
      RoundBox.normal_vec ⟨point 0 0, point 10 10, 2, 1⟩ (Vec3.mk 5 12 0) =
        Concave.normal_vec
          ⟨point (RoundBox.rim ⟨point 0 0, point 10 10, 2, 1⟩ (Vec3.mk 5 12 0)).1
            (RoundBox.rim ⟨point 0 0, point 10 10, 2, 1⟩ (Vec3.mk 5 12 0)).2, 2, 1⟩
          (Vec3.mk 5 12 0) :=
  roundbox_rim_clamp ⟨point 0 0, point 10 10, 2, 1⟩ (Vec3.mk 5 12 0)
    (by norm_num [point]) (by norm_num [point])

/-- Normalizing a purely vertical vector with positive z gives (0,0,1). -/
lemma Vec3.normal_vertical {r : ℝ} (hr : 0 < r) : (Vec3.mk 0 0 r).normal = Vec3.mk 0 0 1 := by
  unfold Vec3.normal Vec3.divi Vec3.norm
  have h : (0 : ℝ) ^ 2 + 0 ^ 2 + r ^ 2 = r ^ 2 := by ring
  rw [h, Real.sqrt_sq hr.le]
  simp [div_self hr.ne']

/-- The derived sphere radius of a `Concave` simplifies and is positive when
depth is nonzero. -/
lemma Concave.sphere_radius_pos (depth radius : ℝ) (hd : depth ≠ 0) :
    |depth| + (radius ^ 2 - depth ^ 2) / (2 * |depth|) =
      (radius ^ 2 + depth ^ 2) / (2 * |depth|) ∧
    0 < |depth| + (radius ^ 2 - depth ^ 2) / (2 * |depth|) := by
  have ha : 0 < |depth| := abs_pos.mpr hd
  have hd2 : 0 < depth ^ 2 := lt_of_le_of_ne (sq_nonneg _) (Ne.symm (pow_ne_zero 2 hd))
  have heq : |depth| + (radius ^ 2 - depth ^ 2) / (2 * |depth|) =
      (radius ^ 2 + depth ^ 2) / (2 * |depth|) := by
    field_simp
    nlinarith [sq_abs depth]
  refine ⟨heq, ?_⟩
  rw [heq]
  exact div_pos (by nlinarith [sq_nonneg radius]) (by linarith)

/-- At a query whose offset from the center is exactly zero, `Concave`
returns the vertical normal (0,0,1) with coverage min radius 1, for either
sign of a nonzero depth. -/
lemma Concave.normal_vec_pole {s : Concave} {p : Vec3} (hp : p.sub s.center = Vec3.mk 0 0 0)
    (hd : s.depth ≠ 0) (hr : 0 ≤ s.radius) :
    s.normal_vec p = some (Vec3.mk 0 0 1, min s.radius 1) := by
  obtain ⟨-, hrpos⟩ := Concave.sphere_radius_pos s.depth s.radius hd
  have hnz : (Vec3.mk (0 : ℝ) 0 0).norm = 0 := by
    simp [Vec3.norm]
  simp only [Concave.normal_vec, hp, hnz]
  rw [if_pos hr]
  simp only [mul_zero, zero_div, Real.arcsin_zero, Real.cos_zero, mul_one, sub_zero]
  rw [Vec3.normal_vertical hrpos]

/-- C6 counterexample: the Concave with center (150,150), radius 130 and
positive depth 30 returns at its own center the normal (0,0,1), whose
z-component is 1 > 0 — not of the sign of -depth. -/
theorem pole_normal_positive_z_counterexample :
    Concave.normal_vec ⟨Vec3.mk 150 150 0, 130, 30⟩ (Vec3.mk 150 150 0) =
        some (Vec3.mk 0 0 1, 1) ∧
      ¬((Vec3.mk (0 : ℝ) 0 1).z < 0) := by
  constructor
  · have h := Concave.normal_vec_pole (s := ⟨Vec3.mk 150 150 0, 130, 30⟩)
      (p := Vec3.mk 150 150 0) (by simp [Vec3.sub]) (by norm_num) (by norm_num)
    rw [h]
    norm_num
  · norm_num

/-- C6 (amended): at an interior anchor point (offset zero from the transient
center) the returned normal of a `Concave`, and of a `RoundBox` whose rim
anchor equals the planar query point, is exactly (0,0,1): its z-component is
strictly positive regardless of the sign of the (nonzero) depth — the sign of
-depth shows up in the radial x,y components instead, not in z. -/
theorem pole_normal_positive_z :
    (∀ s : Concave, s.depth ≠ 0 → 0 ≤ s.radius →
      s.normal_vec s.center = some (Vec3.mk 0 0 1, min s.radius 1)) ∧
    (∀ (s : RoundBox) (p : Vec3), s.depth ≠ 0 → 0 ≤ s.border_radius → p.z = 0 →
      s.rim p = (p.x, p.y) →
      s.normal_vec p = some (Vec3.mk 0 0 1, min s.border_radius 1)) ∧
    (0 : ℝ) < (Vec3.mk (0 : ℝ) 0 1).z := by
  refine ⟨?_, ?_, by norm_num⟩
  · intro s hd hr
    exact Concave.normal_vec_pole (by simp [Vec3.sub]) hd hr
  · intro s p hd hr hz hrim
    unfold RoundBox.normal_vec
    rw [hrim]
    exact Concave.normal_vec_pole (by simp [Vec3.sub, point, hz]) hd hr

/-- Witness for C6: the Concave with center (0,0), radius 2, depth 1 at its
center, and a degenerate RoundBox whose rim anchor at (1,1) is (1,1). -/
theorem pole_normal_positive_z_witness :
    Concave.normal_vec ⟨Vec3.mk 0 0 0, 2, 1⟩ (Vec3.mk 0 0 0) =
        some (Vec3.mk 0 0 1, min 2 1) ∧
      RoundBox.normal_vec ⟨point 0 0, point 10 10, 2, 1⟩ (Vec3.mk 1 1 0) =
        some (Vec3.mk 0 0 1, min 2 1) := by
  constructor
  · exact pole_normal_positive_z.1 ⟨Vec3.mk 0 0 0, 2, 1⟩ (by norm_num) (by norm_num)
  · refine pole_normal_positive_z.2.1 ⟨point 0 0, point 10 10, 2, 1⟩ (Vec3.mk 1 1 0)
      (by norm_num) (by norm_num) rfl ?_
    rw [RoundBox.rim_eq_components]
    norm_num [point]

/-- C7 counterexample: for the RoundBox with top_left (10,0) and
bottom_right (0,0) — corners swapped in x — the surface query at the corner
point (bottom_right.x, top_left.y) = (0,0) answers nothing, while the
discrete Concave centered at that corner with the same border radius and
depth answers a hit there. -/
theorem roundbox_corner_concave_counterexample :
    RoundBox.normal_vec ⟨Vec3.mk 10 0 0, Vec3.mk 0 0 0, 5, -4⟩ (point 0 0) = none ∧
      Concave.normal_vec ⟨point 0 0, 5, -4⟩ (point 0 0) = some (Vec3.mk 0 0 1, 1) := by
  have s100 : Real.sqrt 100 = 10 := sqrt_eval (by norm_num) (by norm_num)
  constructor
  · have hrim : RoundBox.rim ⟨Vec3.mk 10 0 0, Vec3.mk 0 0 0, 5, -4⟩ (point 0 0) = (10, 0) := by
      rw [RoundBox.rim_eq_components]
      norm_num [point]
    unfold RoundBox.normal_vec
    rw [hrim]
    refine concave_miss ?_
    simp only [point, Vec3.sub, Vec3.norm]
    norm_num [s100]
  · have h := Concave.normal_vec_pole (s := ⟨point 0 0, 5, -4⟩) (p := point 0 0)
      (by simp [Vec3.sub, point]) (by norm_num) (by norm_num)
    rw [h]
    norm_num

/-- C7 (amended): whenever top_left ≤ bottom_right componentwise, the
RoundBox surface query at each of its four exact corner points returns
exactly what a discrete Concave centered at that corner with
radius = border_radius and the same depth returns; and any two surfaces whose
queries agree at a pixel's query point draw that pixel identically, so the
RoundBox pixel at such a corner is drawn exactly as the corner Concave's. -/
theorem roundbox_corner_concave (s : RoundBox)
    (hx : s.top_left.x ≤ s.bottom_right.x) (hy : s.top_left.y ≤ s.bottom_right.y) :
    (s.normal_vec (point s.top_left.x s.top_left.y) =
      Concave.normal_vec ⟨point s.top_left.x s.top_left.y, s.border_radius, s.depth⟩
        (point s.top_left.x s.top_left.y)) ∧
    (s.normal_vec (point s.bottom_right.x s.top_left.y) =
      Concave.normal_vec ⟨point s.bottom_right.x s.top_left.y, s.border_radius, s.depth⟩
        (point s.bottom_right.x s.top_left.y)) ∧
    (s.normal_vec (point s.top_left.x s.bottom_right.y) =
      Concave.normal_vec ⟨point s.top_left.x s.bottom_right.y, s.border_radius, s.depth⟩
        (point s.top_left.x s.bottom_right.y)) ∧
    (s.normal_vec (point s.bottom_right.x s.bottom_right.y) =
      Concave.normal_vec ⟨point s.bottom_right.x s.bottom_right.y, s.border_radius, s.depth⟩
        (point s.bottom_right.x s.bottom_right.y)) ∧
    (∀ (nv₁ nv₂ : Vec3 → Option (Vec3 × ℝ)) (st : Setting) (mat : Material)
      (blend : Rgba → Rgba → Rgba) (w h x y : ℕ) (old : Rgba),
      nv₁ (Vec3.mk x y 0) = nv₂ (Vec3.mk x y 0) →
      drawPixel nv₁ st mat blend w h x y old = drawPixel nv₂ st mat blend w h x y old) := by
  have cornerA : s.rim (point s.top_left.x s.top_left.y) = (s.top_left.x, s.top_left.y) := by
    rw [RoundBox.rim_eq_components]
    simp only [point]
    rw [if_pos le_rfl, if_pos le_rfl]
  have cornerBx : (if s.bottom_right.x ≤ s.top_left.x then s.top_left.x
      else if s.bottom_right.x < s.bottom_right.x then s.bottom_right.x
      else s.bottom_right.x) = s.bottom_right.x := by
    rcases le_or_lt s.bottom_right.x s.top_left.x with h | h
    · rw [if_pos h]
      exact le_antisymm hx h
    · rw [if_neg (not_le.mpr h), if_neg (lt_irrefl _)]
  have cornerCy : (if s.bottom_right.y ≤ s.top_left.y then s.top_left.y
      else if s.bottom_right.y < s.bottom_right.y then s.bottom_right.y
      else s.bottom_right.y) = s.bottom_right.y := by
    rcases le_or_lt s.bottom_right.y s.top_left.y with h | h
    · rw [if_pos h]
      exact le_antisymm hy h
    · rw [if_neg (not_le.mpr h), if_neg (lt_irrefl _)]
  have cornerB : s.rim (point s.bottom_right.x s.top_left.y) =
      (s.bottom_right.x, s.top_left.y) := by
    rw [RoundBox.rim_eq_components]
    simp only [point]
    rw [if_pos le_rfl, cornerBx]
  have cornerC : s.rim (point s.top_left.x s.bottom_right.y) =
      (s.top_left.x, s.bottom_right.y) := by
    rw [RoundBox.rim_eq_components]
    simp only [point]
    rw [if_pos le_rfl, cornerCy]
  have cornerD : s.rim (point s.bottom_right.x s.bottom_right.y) =
      (s.bottom_right.x, s.bottom_right.y) := by
    rw [RoundBox.rim_eq_components]
    simp only [point]
    rw [cornerBx, cornerCy]
  refine ⟨?_, ?_, ?_, ?_, ?_⟩
  · unfold RoundBox.normal_vec
    rw [cornerA]
  · unfold RoundBox.normal_vec
    rw [cornerB]
  · unfold RoundBox.normal_vec
    rw [cornerC]
  · unfold RoundBox.normal_vec
    rw [cornerD]
  · intro nv₁ nv₂ st mat blend w h x y old hq
    unfold drawPixel reflect
    rw [hq]

/-- Witness for C7: the RoundBox spanning (0,0)–(10,10) with border radius 2
and depth 1 agrees with the discrete corner Concaves at all four corners, and
two surfaces answering identically draw a concrete pixel identically. -/
theorem roundbox_corner_concave_witness :
    (RoundBox.normal_vec ⟨point 0 0, point 10 10, 2, 1⟩ (point 0 0) =
      Concave.normal_vec ⟨point 0 0, 2, 1⟩ (point 0 0)) ∧
    (RoundBox.normal_vec ⟨point 0 0, point 10 10, 2, 1⟩ (point 10 0) =
      Concave.normal_vec ⟨point 10 0, 2, 1⟩ (point 10 0)) ∧
    (RoundBox.normal_vec ⟨point 0 0, point 10 10, 2, 1⟩ (point 0 10) =
      Concave.normal_vec ⟨point 0 10, 2, 1⟩ (point 0 10)) ∧
    (RoundBox.normal_vec ⟨point 0 0, point 10 10, 2, 1⟩ (point 10 10) =
      Concave.normal_vec ⟨point 10 10, 2, 1⟩ (point 10 10)) ∧
    drawPixel (fun _ => none) ⟨1, Vec3.mk 0 0 1, 0⟩ ⟨⟨0, 0, 0, 0⟩, 0, 0⟩ (fun _ n => n)
        1 1 0 0 ⟨7, 7, 7, 7⟩ =
      drawPixel (fun _ => none) ⟨1, Vec3.mk 0 0 1, 0⟩ ⟨⟨0, 0, 0, 0⟩, 0, 0⟩ (fun _ n => n)
        1 1 0 0 ⟨7, 7, 7, 7⟩ := by
  have h := roundbox_corner_concave ⟨point 0 0, point 10 10, 2, 1⟩
    (by norm_num [point]) (by norm_num [point])
  exact ⟨h.1, h.2.1, h.2.2.1, h.2.2.2.1,
    h.2.2.2.2 (fun _ => none) (fun _ => none) ⟨1, Vec3.mk 0 0 1, 0⟩ ⟨⟨0, 0, 0, 0⟩, 0, 0⟩
      (fun _ n => n) 1 1 0 0 ⟨7, 7, 7, 7⟩ rfl⟩

/-- Evaluation of the C8 scenario: the Corn with center (150,150),
radius 150, height 450, queried at the exact center (150,150,0).  The offset
is the zero vector, so `rot_xy` normalizes a zero vector — a division by
zero, which under the exact-real embedding (x / 0 = 0) collapses the rotated
slant to (0,0,150); the returned normal is therefore (0,0,1), with
coverage 1. -/
lemma corn_center_eval :
    Corn.normal_vec ⟨Vec3.mk 150 150 0, 150, 450⟩ (Vec3.mk 150 150 0) =
      some (Vec3.mk 0 0 1, 1) := by
  have hq : (Vec3.mk (150 : ℝ) 150 0).sub (Vec3.mk 150 150 0) = Vec3.mk 0 0 0 := by
    simp [Vec3.sub]
  have hnz : (Vec3.mk (0 : ℝ) 0 0).norm = 0 := by
    simp [Vec3.norm]
  have hrot : (Vec3.mk (450 : ℝ) 0 150).rot_xy (Vec3.mk 0 0 0) = Vec3.mk 0 0 150 := by
    unfold Vec3.rot_xy Vec3.normal Vec3.divi
    rw [hnz]
    norm_num
  simp only [Corn.normal_vec, hq, hnz]
  rw [if_pos (by norm_num : (0 : ℝ) ≤ 150), hrot, Vec3.normal_vertical (by norm_num)]
  norm_num

/-- C8 counterexample: at the exact center the returned normal is (0,0,1)
(the rotation vector is the zero vector, so its normalization divides by
zero), whose x-component 0 is nowhere near the claimed 0.9487. -/
theorem corn_center_counterexample :
    Corn.normal_vec ⟨Vec3.mk 150 150 0, 150, 450⟩ (Vec3.mk 150 150 0) =
        some (Vec3.mk 0 0 1, 1) ∧
      (Vec3.mk (0 : ℝ) 0 1).x < 0.9 := by
  exact ⟨corn_center_eval, by norm_num⟩

/-- C8 (amended): the query at the exact center is a hit (distance 0 ≤
radius) with coverage exactly 1.0, but its normal is not ≈ (0.9487, 0,
0.3162): rotating the slant (450,0,150) by the zero offset vector is
degenerate (the rotation vector's normalization divides by zero) and yields
(0,0,150) under the exact-real embedding, so the returned normal is
(0,0,1). -/
theorem corn_center_degenerate :
    Corn.normal_vec ⟨Vec3.mk 150 150 0, 150, 450⟩ (Vec3.mk 150 150 0) =
        some (Vec3.mk 0 0 1, 1) ∧
      (Vec3.mk (450 : ℝ) 0 150).rot_xy (Vec3.mk 0 0 0) = Vec3.mk 0 0 150 := by
  refine ⟨corn_center_eval, ?_⟩
  unfold Vec3.rot_xy Vec3.normal Vec3.divi
  have hnz : (Vec3.mk (0 : ℝ) 0 0).norm = 0 := by
    simp [Vec3.norm]
  rw [hnz]
  norm_num

lemma Vec3.norm_sq (v : Vec3) : v.norm ^ 2 = v.x ^ 2 + v.y ^ 2 + v.z ^ 2 :=
  Real.sq_sqrt (by positivity)

lemma Vec3.norm_pos {v : Vec3} (h : 0 < v.x ^ 2 + v.y ^ 2 + v.z ^ 2) : 0 < v.norm :=
  Real.sqrt_pos.mpr h

lemma Vec3.normal_x (v : Vec3) : v.normal.x = v.x / v.norm :=
  rfl

lemma Vec3.normal_y (v : Vec3) : v.normal.y = v.y / v.norm :=
  rfl

lemma Vec3.normal_z (v : Vec3) : v.normal.z = v.z / v.norm :=
  rfl

/-- Normalizing a vector of nonzero norm yields a unit-length vector. -/
lemma Vec3.normal_norm {v : Vec3} (h : v.norm ≠ 0) : v.normal.norm = 1 := by
  have hs := Vec3.norm_sq v
  unfold Vec3.normal Vec3.divi
  rw [Vec3.norm_mk]
  have harg : (v.x / v.norm) ^ 2 + (v.y / v.norm) ^ 2 + (v.z / v.norm) ^ 2 = 1 := by
    field_simp
    linarith [hs]
  rw [harg, Real.sqrt_one]

/-- C9: for a Concave with nonzero depth, the derived sphere radius equals
(radius² + depth²) / (2 |depth|) and is strictly positive; every in-footprint
planar query has asin argument at most 1; and the surface query returns a
unit-length normal with non-negative z-component — for either sign of the
depth, and including the exact center. -/
theorem concave_inside_safe (s : Concave) (p : Vec3) (hd : s.depth ≠ 0)
    (hz : p.z = 0) (hcz : s.center.z = 0)
    (hin : (p.sub s.center).norm ≤ s.radius) :
    (|s.depth| + (s.radius ^ 2 - s.depth ^ 2) / (2 * |s.depth|) =
      (s.radius ^ 2 + s.depth ^ 2) / (2 * |s.depth|)) ∧
    (0 < |s.depth| + (s.radius ^ 2 - s.depth ^ 2) / (2 * |s.depth|)) ∧
    ((p.sub s.center).norm /
      (|s.depth| + (s.radius ^ 2 - s.depth ^ 2) / (2 * |s.depth|)) ≤ 1) ∧
    (∃ n cov, s.normal_vec p = some (n, cov) ∧ n.norm = 1 ∧ 0 ≤ n.z) := by
  obtain ⟨heq, hrpos⟩ := Concave.sphere_radius_pos s.depth s.radius hd
  have ha : 0 < |s.depth| := abs_pos.mpr hd
  have hradius_le : s.radius ≤ |s.depth| + (s.radius ^ 2 - s.depth ^ 2) / (2 * |s.depth|) := by
    rw [heq, le_div_iff₀ (by linarith)]
    nlinarith [sq_abs s.depth, sq_nonneg (s.radius - |s.depth|)]
  have harg : (p.sub s.center).norm /
      (|s.depth| + (s.radius ^ 2 - s.depth ^ 2) / (2 * |s.depth|)) ≤ 1 :=
    (div_le_one hrpos).mpr (hin.trans hradius_le)
  refine ⟨heq, hrpos, harg, ?_⟩
  have hqz : (p.sub s.center).z = 0 := by
    simp [Vec3.sub, hz, hcz]
  have hcos : 0 ≤ Real.cos (Real.arcsin ((p.sub s.center).norm /
      (|s.depth| + (s.radius ^ 2 - s.depth ^ 2) / (2 * |s.depth|)))) := by
    rw [Real.cos_arcsin]
    exact Real.sqrt_nonneg _
  have hps : (-1 * s.depth / |s.depth|) ^ 2 = 1 := by
    rw [div_pow, mul_pow, neg_one_sq, one_mul, sq_abs]
    exact div_self (pow_ne_zero 2 hd)
  have hne : 0 < (-1 * s.depth / |s.depth| * (p.sub s.center).x) ^ 2 +
      (-1 * s.depth / |s.depth| * (p.sub s.center).y) ^ 2 +
      ((|s.depth| + (s.radius ^ 2 - s.depth ^ 2) / (2 * |s.depth|)) *
        Real.cos (Real.arcsin ((p.sub s.center).norm /
          (|s.depth| + (s.radius ^ 2 - s.depth ^ 2) / (2 * |s.depth|))))) ^ 2 := by
    by_cases hxy : (p.sub s.center).x = 0 ∧ (p.sub s.center).y = 0
    · have hq0 : (p.sub s.center).norm = 0 := by
        unfold Vec3.norm
        rw [hxy.1, hxy.2, hqz]
        simp
      rw [hq0, zero_div, Real.arcsin_zero, Real.cos_zero]
      have : 0 < ((|s.depth| + (s.radius ^ 2 - s.depth ^ 2) / (2 * |s.depth|)) * 1) ^ 2 := by
        positivity
      nlinarith [sq_nonneg (-1 * s.depth / |s.depth| * (p.sub s.center).x),
        sq_nonneg (-1 * s.depth / |s.depth| * (p.sub s.center).y)]
    · have hxy2 : 0 < (p.sub s.center).x ^ 2 + (p.sub s.center).y ^ 2 := by
        rcases not_and_or.mp hxy with h | h
        · have := sq_nonneg (p.sub s.center).y
          have hx2 : 0 < (p.sub s.center).x ^ 2 :=
            lt_of_le_of_ne (sq_nonneg _) (Ne.symm (pow_ne_zero 2 h))
          linarith
        · have := sq_nonneg (p.sub s.center).x
          have hy2 : 0 < (p.sub s.center).y ^ 2 :=
            lt_of_le_of_ne (sq_nonneg _) (Ne.symm (pow_ne_zero 2 h))
          linarith
      have hexp : (-1 * s.depth / |s.depth| * (p.sub s.center).x) ^ 2 +
          (-1 * s.depth / |s.depth| * (p.sub s.center).y) ^ 2 =
          (p.sub s.center).x ^ 2 + (p.sub s.center).y ^ 2 := by
        rw [mul_pow, mul_pow, hps, one_mul, one_mul]
      nlinarith [sq_nonneg ((|s.depth| + (s.radius ^ 2 - s.depth ^ 2) / (2 * |s.depth|)) *
        Real.cos (Real.arcsin ((p.sub s.center).norm /
          (|s.depth| + (s.radius ^ 2 - s.depth ^ 2) / (2 * |s.depth|)))))]
  have hvpos : 0 < (Vec3.mk (-1 * s.depth / |s.depth| * (p.sub s.center).x)
      (-1 * s.depth / |s.depth| * (p.sub s.center).y)
      ((|s.depth| + (s.radius ^ 2 - s.depth ^ 2) / (2 * |s.depth|)) *
        Real.cos (Real.arcsin ((p.sub s.center).norm /
          (|s.depth| + (s.radius ^ 2 - s.depth ^ 2) / (2 * |s.depth|)))))).norm :=
    Vec3.norm_pos hne
  have hvec : s.normal_vec p = some ((Vec3.mk (-1 * s.depth / |s.depth| * (p.sub s.center).x)
      (-1 * s.depth / |s.depth| * (p.sub s.center).y)
      ((|s.depth| + (s.radius ^ 2 - s.depth ^ 2) / (2 * |s.depth|)) *
        Real.cos (Real.arcsin ((p.sub s.center).norm /
          (|s.depth| + (s.radius ^ 2 - s.depth ^ 2) / (2 * |s.depth|)))))).normal,
      min (s.radius - (p.sub s.center).norm) 1) := by
    simp only [Concave.normal_vec]
    rw [if_pos hin]
  refine ⟨_, _, hvec, Vec3.normal_norm hvpos.ne', ?_⟩
  rw [Vec3.normal_z]
  exact div_nonneg (by positivity) (Vec3.norm_nonneg _)

/-- Witness for C9: the Concave with center (0,0,0), radius 2, depth 1
queried at the exact center satisfies every safety conclusion. -/
theorem concave_inside_safe_witness :
    (|(1 : ℝ)| + ((2 : ℝ) ^ 2 - (1 : ℝ) ^ 2) / (2 * |(1 : ℝ)|) =
      ((2 : ℝ) ^ 2 + (1 : ℝ) ^ 2) / (2 * |(1 : ℝ)|)) ∧
    (0 < |(1 : ℝ)| + ((2 : ℝ) ^ 2 - (1 : ℝ) ^ 2) / (2 * |(1 : ℝ)|)) ∧
    (((Vec3.mk 0 0 0).sub (Vec3.mk 0 0 0)).norm /
      (|(1 : ℝ)| + ((2 : ℝ) ^ 2 - (1 : ℝ) ^ 2) / (2 * |(1 : ℝ)|)) ≤ 1) ∧
    (∃ n cov, Concave.normal_vec ⟨Vec3.mk 0 0 0, 2, 1⟩ (Vec3.mk 0 0 0) = some (n, cov) ∧
      n.norm = 1 ∧ 0 ≤ n.z) := by
  refine concave_inside_safe ⟨Vec3.mk 0 0 0, 2, 1⟩ (Vec3.mk 0 0 0) (by norm_num) rfl rfl ?_
  have h0 : ((Vec3.mk (0 : ℝ) 0 0).sub (Vec3.mk 0 0 0)).norm = 0 := by
    simp [Vec3.sub, Vec3.norm]
  rw [h0]
  norm_num

/-- The normalized direction of a planar nonzero vector has unit xy-part. -/
lemma Vec3.normal_xy_unit {q : Vec3} (hz : q.z = 0) (h : q.norm ≠ 0) :
    q.normal.x ^ 2 + q.normal.y ^ 2 = 1 := by
  have hs := Vec3.norm_sq q
  rw [hz] at hs
  unfold Vec3.normal Vec3.divi
  simp only
  field_simp
  linarith [hs]

/-- Negating the x,y components of a vector (of unchanged norm) negates the
x,y components of its normalization and keeps z. -/
lemma Vec3.normal_neg_xy (c d e : ℝ)
    (h : (Vec3.mk (-c) (-d) e).norm = (Vec3.mk c d e).norm) :
    (Vec3.mk (-c) (-d) e).normal =
      Vec3.mk (-(Vec3.mk c d e).normal.x) (-(Vec3.mk c d e).normal.y)
        ((Vec3.mk c d e).normal.z) := by
  unfold Vec3.normal Vec3.divi
  simp only
  rw [h]
  ext <;> simp [neg_div]

/-- C10: for a Corn with positive radius at a planar query strictly between
the center and the radius, the returned normal is the normalization of
(height u.x, height u.y, radius) for the unit radial direction u; its
z-component is radius / sqrt (height² + radius²), strictly positive whatever
the sign of the height, and negating the height only negates the x,y part of
the normal. -/
theorem corn_inside_normal (s : Corn) (p : Vec3) (hz : p.z = 0) (hcz : s.center.z = 0)
    (hr : 0 < s.radius) (h0 : 0 < (p.sub s.center).norm)
    (hin : (p.sub s.center).norm ≤ s.radius) :
    ∃ n : Vec3,
      s.normal_vec p = some (n, min (s.radius - (p.sub s.center).norm) 1) ∧
      n = (Vec3.mk (s.height * (p.sub s.center).normal.x)
        (s.height * (p.sub s.center).normal.y) s.radius).normal ∧
      n.z = s.radius / Real.sqrt (s.height ^ 2 + s.radius ^ 2) ∧
      0 < n.z ∧
      Corn.normal_vec ⟨s.center, s.radius, -s.height⟩ p =
        some (Vec3.mk (-n.x) (-n.y) n.z, min (s.radius - (p.sub s.center).norm) 1) := by
  have hqz : (p.sub s.center).z = 0 := by
    simp [Vec3.sub, hz, hcz]
  have huxy : (p.sub s.center).normal.x ^ 2 + (p.sub s.center).normal.y ^ 2 = 1 :=
    Vec3.normal_xy_unit hqz h0.ne'
  have hrot : (Vec3.mk s.height 0 s.radius).rot_xy (p.sub s.center) =
      Vec3.mk (s.height * (p.sub s.center).normal.x)
        (s.height * (p.sub s.center).normal.y) s.radius := by
    unfold Vec3.rot_xy
    ext <;> simp
  have hrot' : (Vec3.mk (-s.height) 0 s.radius).rot_xy (p.sub s.center) =
      Vec3.mk (-(s.height * (p.sub s.center).normal.x))
        (-(s.height * (p.sub s.center).normal.y)) s.radius := by
    unfold Vec3.rot_xy
    ext <;> simp
  have hvnorm : (Vec3.mk (s.height * (p.sub s.center).normal.x)
      (s.height * (p.sub s.center).normal.y) s.radius).norm =
      Real.sqrt (s.height ^ 2 + s.radius ^ 2) := by
    rw [Vec3.norm_mk]
    congr 1
    nlinarith [huxy]
  have hvnorm' : (Vec3.mk (-(s.height * (p.sub s.center).normal.x))
      (-(s.height * (p.sub s.center).normal.y)) s.radius).norm =
      Real.sqrt (s.height ^ 2 + s.radius ^ 2) := by
    rw [Vec3.norm_mk]
    congr 1
    nlinarith [huxy]
  have hsq : 0 < Real.sqrt (s.height ^ 2 + s.radius ^ 2) :=
    Real.sqrt_pos.mpr (by nlinarith)
  refine ⟨(Vec3.mk (s.height * (p.sub s.center).normal.x)
    (s.height * (p.sub s.center).normal.y) s.radius).normal, ?_, rfl, ?_, ?_, ?_⟩
  · simp only [Corn.normal_vec]
    rw [if_pos hin, hrot]
  · rw [Vec3.normal_z, hvnorm]
  · rw [Vec3.normal_z, hvnorm]
    exact div_pos hr hsq
  · simp only [Corn.normal_vec]
    rw [if_pos hin, hrot',
      Vec3.normal_neg_xy (s.height * (p.sub s.center).normal.x)
        (s.height * (p.sub s.center).normal.y) s.radius (hvnorm'.trans hvnorm.symm)]

/-- Witness for C10: the Corn with center (0,0,0), radius 5, height 2
queried at (3,4,0): the hit, its normal formula and the positive
z-component. -/
theorem corn_inside_normal_witness :
    Corn.normal_vec ⟨Vec3.mk 0 0 0, 5, 2⟩ (Vec3.mk 3 4 0) =
      some ((Vec3.mk (2 * ((Vec3.mk 3 4 0).sub (Vec3.mk 0 0 0)).normal.x)
          (2 * ((Vec3.mk 3 4 0).sub (Vec3.mk 0 0 0)).normal.y) 5).normal,
        min (5 - ((Vec3.mk 3 4 0).sub (Vec3.mk 0 0 0)).norm) 1) ∧
    0 < (5 : ℝ) / Real.sqrt ((2 : ℝ) ^ 2 + (5 : ℝ) ^ 2) := by
  have hnval : ((Vec3.mk (3 : ℝ) 4 0).sub (Vec3.mk 0 0 0)).norm = 5 := by
    simp only [Vec3.sub, Vec3.norm]
    norm_num
    exact sqrt_eval (by norm_num) (by norm_num)
  obtain ⟨n, h1, h2, h3, h4, -⟩ := corn_inside_normal ⟨Vec3.mk 0 0 0, 5, 2⟩ (Vec3.mk 3 4 0)
    rfl rfl (by norm_num) (by rw [hnval]; norm_num) (by rw [hnval])
  rw [h2] at h1
  rw [h3] at h4
  exact ⟨h1, h4⟩

end Aesor
